import Mathlib

/-!
Verification of the affiliation-classification core of the `pubmed_papers`
package (`filters.py` and `models.py`).

Strings are modelled as `List Char`; Python's `str.lower` is modelled by
`pyLowerCh` (ASCII case folding), Python's `in` substring test by `isSubstr`,
Python's `str.strip()` by `trimWs`, and the two `re` patterns used by
`_extract_company_name` by a small backtracking matcher (`matchAt` / `reSearch`)
that reproduces Python's leftmost search with greedy, ordered backtracking.
-/

set_option maxRecDepth 4000

/-- Strings from the Python source, modelled as lists of characters. -/
abbrev Str := List Char

/-- Coerce a Lean string literal to the `List Char` model. -/
def strL (s : String) : Str := s.data

/-- Python `\s` (ASCII): space, tab, newline, carriage return, vertical tab, form feed. -/
def isWsCh (c : Char) : Bool :=
  c.toNat = 32 || c.toNat = 9 || c.toNat = 10 || c.toNat = 13 || c.toNat = 11 || c.toNat = 12

/-- ASCII upper-case letter. -/
def isUpperCh (c : Char) : Bool := 65 ≤ c.toNat && c.toNat ≤ 90

/-- ASCII lower-case letter. -/
def isLowerCh (c : Char) : Bool := 97 ≤ c.toNat && c.toNat ≤ 122

/-- ASCII letter; this is what `[A-Z]` matches under `re.IGNORECASE`. -/
def isAlphaCh (c : Char) : Bool := isUpperCh c || isLowerCh c

/-- ASCII digit. -/
def isDigitCh (c : Char) : Bool := 48 ≤ c.toNat && c.toNat ≤ 57

/-- Python `\w` (ASCII): letter, digit or underscore. -/
def isWordCh (c : Char) : Bool := isAlphaCh c || isDigitCh c || c.toNat = 95

/-- The character class `[A-Za-z0-9\-\s]` of the corporate-suffix regex. -/
def isSuffixClsCh (c : Char) : Bool :=
  isAlphaCh c || isDigitCh c || c.toNat = 45 || isWsCh c

/-- ASCII case folding of a single character, as performed by Python `str.lower`. -/
def pyLowerCh (c : Char) : Char :=
  if isUpperCh c then Char.ofNat (c.toNat + 32) else c

/-- ASCII upper-casing of a single character, as performed by Python `str.upper`. -/
def pyUpperCh (c : Char) : Char :=
  if isLowerCh c then Char.ofNat (c.toNat - 32) else c

/-- Python `str.lower` on the whole string. -/
def pyLower (s : Str) : Str := s.map pyLowerCh

/-- Python substring containment `needle in haystack`. -/
def isSubstr (needle : Str) : Str → Bool
  | [] => needle.isPrefixOf []
  | c :: t => needle.isPrefixOf (c :: t) || isSubstr needle t

/-- Python `str.strip()`: drop leading and trailing whitespace. -/
def trimWs (s : Str) : Str :=
  ((s.dropWhile isWsCh).reverse.dropWhile isWsCh).reverse

/-- Number of non-whitespace characters of a string. -/
def countNonWs (s : Str) : Nat := s.countP (fun c => !isWsCh c)

/-- `ACADEMIC_KEYWORDS` from `filters.py` (source order). -/
def ACADEMIC_KEYWORDS : List Str :=
  [strL "university", strL "college", strL "institute", strL "school",
   strL "academy", strL "academia", strL "faculty", strL "department",
   strL "dept", strL "laboratory", strL "research center", strL "hospital",
   strL "clinic", strL "medical center", strL "health center"]

/-- `PHARMA_BIOTECH_KEYWORDS` from `filters.py` (source order). -/
def PHARMA_BIOTECH_KEYWORDS : List Str :=
  [strL "pharma", strL "biotech", strL "therapeutics", strL "bioscience",
   strL "biopharm", strL "laboratories", strL "labs", strL "inc", strL "llc",
   strL "ltd", strL "gmbh", strL "corp", strL "co.", strL "plc",
   strL "biopharma", strL "genomics", strL "biologics", strL "biotechnology"]

/-- `COMMON_PHARMA_BIOTECH_COMPANIES` from `filters.py` (source order). -/
def COMMON_PHARMA_BIOTECH_COMPANIES : List Str :=
  [strL "pfizer", strL "merck", strL "novartis", strL "roche",
   strL "johnson & johnson", strL "j&j", strL "jnj", strL "sanofi",
   strL "glaxosmithkline", strL "gsk", strL "astrazeneca", strL "gilead",
   strL "amgen", strL "abbvie", strL "lilly", strL "eli lilly",
   strL "bristol-myers squibb", strL "bms", strL "boehringer", strL "moderna",
   strL "biogen", strL "regeneron", strL "bayer", strL "vertex",
   strL "novo nordisk", strL "takeda", strL "astellas", strL "daiichi sankyo",
   strL "eisai", strL "genentech", strL "celgene", strL "alexion",
   strL "incyte", strL "biomarin", strL "alkermes", strL "ionis",
   strL "illumina", strL "10x genomics"]

/-- `NON_ACADEMIC_EMAIL_DOMAINS` from `filters.py`. -/
def NON_ACADEMIC_EMAIL_DOMAINS : List Str :=
  [strL ".com", strL ".co", strL ".io", strL ".ai", strL ".bio", strL ".net"]

/-- `ACADEMIC_EMAIL_DOMAINS` from `filters.py`. -/
def ACADEMIC_EMAIL_DOMAINS : List Str :=
  [strL ".edu", strL ".ac.", strL ".gov"]

example : isSubstr (strL "merck") (strL "at merck kgaa") = true := by decide
example : isSubstr (strL "merck") (strL "at merk") = false := by decide
example : trimWs (strL "  a b  ") = strL "a b" := by decide
example : pyLower (strL "Acme Ltd.") = strL "acme ltd." := by decide

/-!
A small regular-expression abstract syntax covering exactly the constructs
used by the two patterns of `_extract_company_name`: literals, a single
character from a class, `+` applied to a character class, concatenation,
ordered alternation and greedy `?`.
-/

/-- Regular expressions, restricted to the constructs of the two source patterns. -/
inductive RE where
  | fail : RE
  | lit : Str → RE
  | cls : (Char → Bool) → RE
  | plusCls : (Char → Bool) → RE
  | seq : RE → RE → RE
  | alt : RE → RE → RE
  | opt : RE → RE

/-- Ordered alternation over a list of branches, as in `(?:a|b|...)`. -/
def altList (rs : List RE) : RE := rs.foldr RE.alt RE.fail

/-- Backtracking helper for `+` on a character class: try consuming `j` characters
for `j = m, m-1, ..., 1` (greedy first), calling the continuation on the rest. -/
def tryDrops (k : Str → Option Nat) (s : Str) : Nat → Option Nat
  | 0 => none
  | j + 1 =>
    match k (s.drop (j + 1)) with
    | some r => some r
    | none => tryDrops k s j

/-- Backtracking matcher anchored at the start of `s`, in continuation style.
Alternatives are explored in Python's order: greedy repetition (longest first),
the optional branch before the empty branch, alternation left to right. -/
def matchAt : RE → Str → (Str → Option Nat) → Option Nat
  | .fail, _, _ => none
  | .lit cs, s, k => if cs.isPrefixOf s then k (s.drop cs.length) else none
  | .cls p, s, k =>
    match s with
    | [] => none
    | c :: t => if p c then k t else none
  | .plusCls p, s, k => tryDrops k s (s.takeWhile p).length
  | .seq a b, s, k => matchAt a s (fun rem => matchAt b rem k)
  | .alt a b, s, k =>
    match matchAt a s k with
    | some r => some r
    | none => matchAt b s k
  | .opt r, s, k =>
    match matchAt r s k with
    | some v => some v
    | none => k s

/-- `re.search`: try the match anchored at each position, left to right; on
success return `match.group(0)`, the consumed span. -/
def reSearch (re : RE) : Str → Option Str
  | [] => (matchAt re [] (fun rem => some rem.length)).map (fun _ => ([] : Str))
  | c :: t =>
    match matchAt re (c :: t) (fun rem => some rem.length) with
    | some r => some ((c :: t).take ((c :: t).length - r))
    | none => reSearch re t

/-- The widening pattern `(\w+\s+)?<company>(\s+\w+)?` of step 1 of
`_extract_company_name` (the input is already lower-cased, so `re.IGNORECASE`
reduces to literal matching). -/
def widenPat (company : Str) : RE :=
  .seq (.opt (.seq (.plusCls isWordCh) (.plusCls isWsCh)))
    (.seq (.lit company) (.opt (.seq (.plusCls isWsCh) (.plusCls isWordCh))))

/-- The ordered legal-entity suffix literals of the corporate-suffix regex,
lower-cased (the searched string is lower-cased and the regex is compiled
with `re.IGNORECASE`). -/
def suffixLits : List Str :=
  [strL "inc.", strL "inc", strL "ltd.", strL "ltd", strL "llc", strL "gmbh",
   strL "corp.", strL "corp", strL "s.a.", strL "plc", strL "co.", strL "co",
   strL "limited"]

/-- The corporate-suffix regex
`([A-Z][A-Za-z0-9\-\s]+)\s+(?:Inc\.|Inc|Ltd\.|Ltd|LLC|GmbH|Corp\.|Corp|S\.A\.|PLC|Co\.|Co|Limited)`
under `re.IGNORECASE` (so `[A-Z]` matches any ASCII letter). -/
def suffixPat : RE :=
  .seq (.cls isAlphaCh)
    (.seq (.plusCls isSuffixClsCh)
      (.seq (.plusCls isWsCh) (altList (suffixLits.map RE.lit))))

example : reSearch suffixPat (strL "acme limited") = some (strL "acme limited") := by decide
example : reSearch suffixPat (strL "university of colorado") =
    some (strL "university of co") := by decide
example : reSearch suffixPat (strL "medical school, research center") = none := by decide
example : reSearch (widenPat (strL "merck")) (strL "merck research laboratories") =
    some (strL "merck research") := by decide
example : reSearch (widenPat (strL "pfizer")) (strL "pfizer inc., research division") =
    some (strL "pfizer inc") := by decide

/-- Python `str.title()` (ASCII): upper-case each letter that follows a
non-letter, lower-case every other letter. -/
def titleCase : Bool → Str → Str
  | _, [] => []
  | boundary, c :: t =>
    (if boundary then pyUpperCh c else if isAlphaCh c then pyLowerCh c else c) ::
      titleCase (!isAlphaCh c) t

/-- `_extract_company_name` from `filters.py`: first the known-company lexicon
with the widening pattern, then the corporate-suffix regex as fallback; the
empty string means "no company found". -/
def _extract_company_name (affiliation : Str) : Str :=
  match COMMON_PHARMA_BIOTECH_COMPANIES.find? (fun company => isSubstr company affiliation) with
  | some company =>
    match reSearch (widenPat company) affiliation with
    | some span => trimWs span
    | none => titleCase true company
  | none =>
    match reSearch suffixPat affiliation with
    | some span => trimWs span
    | none => []

/-- One iteration of the per-affiliation-string loop of
`identify_non_academic_authors` (lines 66-86 of `filters.py`), acting on the
accumulated `(is_non_academic, company_affiliations)` state of the author. -/
def stringStep (st : Bool × List Str) (affiliation : Str) : Bool × List Str :=
  let affiliation_lower := pyLower affiliation
  if affiliation_lower.length < 3 then st
  else
    let company_name := _extract_company_name affiliation_lower
    if company_name = [] then
      if PHARMA_BIOTECH_KEYWORDS.any (fun keyword => isSubstr keyword affiliation_lower) &&
          !(ACADEMIC_KEYWORDS.any (fun keyword => isSubstr keyword affiliation_lower)) then
        (true, st.2 ++ [affiliation])
      else st
    else (true, st.2 ++ [company_name])

/-- `Author` from `models.py`. -/
structure Author where
  name : String
  affiliations : List Str := []
  email : Option Str := none
  is_corresponding_author : Bool := false
  is_non_academic : Bool := false
  company_affiliations : List Str := []
deriving DecidableEq, Repr

/-- `Paper` from `models.py` (`publication_date` is opaque to the classifier
and kept as a string). -/
structure Paper where
  pubmed_id : String
  title : String
  publication_date : String
  authors : List Author := []
deriving DecidableEq, Repr

/-- The `Paper.has_non_academic_authors` property from `models.py`. -/
def Paper.has_non_academic_authors (p : Paper) : Bool :=
  p.authors.any (fun author => author.is_non_academic)

/-- The `(is_non_academic, company_affiliations)` state of an author after the
affiliation-text scan (reset to `(false, [])`, then one `stringStep` per
affiliation string, in order). -/
def affilState (author : Author) : Bool × List Str :=
  author.affiliations.foldl stringStep (false, [])

/-- The email-domain check of `identify_non_academic_authors`
(lines 89-99 of `filters.py`). -/
def emailStep (email : Option Str) (affiliations : List Str) (st : Bool × List Str) :
    Bool × List Str :=
  match email with
  | none => st
  | some e =>
    let email_lower := pyLower e
    let has_non_academic_domain :=
      NON_ACADEMIC_EMAIL_DOMAINS.any (fun domain => isSubstr domain email_lower)
    let has_academic_domain :=
      ACADEMIC_EMAIL_DOMAINS.any (fun domain => isSubstr domain email_lower)
    if has_non_academic_domain && !has_academic_domain && !st.1 then
      (true, if st.2.isEmpty && !affiliations.isEmpty then affiliations.take 1 else st.2)
    else st

/-- Classification of a single author: the per-author body of the loops of
`identify_non_academic_authors` (reset, affiliation scan, email check). -/
def classifyAuthor (author : Author) : Author :=
  let st := emailStep author.email author.affiliations (affilState author)
  { author with is_non_academic := st.1, company_affiliations := st.2 }

/-- Classification of every author of a paper. -/
def classifyPaper (p : Paper) : Paper :=
  { p with authors := p.authors.map classifyAuthor }

/-- `identify_non_academic_authors` from `filters.py`: classify every author of
every paper, then return the papers that have at least one non-academic author
(line 102 of `filters.py`). -/
def identify_non_academic_authors (papers : List Paper) : List Paper :=
  (papers.map classifyPaper).filter (fun paper => paper.has_non_academic_authors)

/-- `filter_papers_with_company_affiliations` from `filters.py`. -/
def filter_papers_with_company_affiliations (papers : List Paper) : List Paper :=
  (identify_non_academic_authors papers).filter
    (fun paper => paper.has_non_academic_authors)

example :
    _extract_company_name (pyLower (strL "Pfizer Inc., Research Division")) =
      strL "pfizer inc" := by decide
example :
    stringStep (false, []) (strL "University of Science, Department of Medicine") =
      (false, []) := by decide
example :
    stringStep (false, []) (strL "GeneTech Biotech Company") =
      (true, [strL "genetech biotech co"]) := by decide
example :
    classifyAuthor
      { name := "Academic Author",
        affiliations := [strL "University of Science, Department of Medicine"],
        email := some (strL "author@university.edu") } =
    { name := "Academic Author",
      affiliations := [strL "University of Science, Department of Medicine"],
      email := some (strL "author@university.edu"), is_non_academic := false,
      company_affiliations := [] } := by decide

/-! Semantics of the restricted regular expressions, and soundness and
completeness facts about the backtracking matcher. -/

/-- `Accepts re l` : the pattern `re` matches exactly the string `l`. -/
inductive Accepts : RE → Str → Prop where
  | lit (cs : Str) : Accepts (.lit cs) cs
  | cls {p : Char → Bool} {c : Char} : p c = true → Accepts (.cls p) [c]
  | plusCls {p : Char → Bool} {l : Str} : l ≠ [] → (∀ c ∈ l, p c = true) →
      Accepts (.plusCls p) l
  | seq {a b : RE} {l₁ l₂ : Str} : Accepts a l₁ → Accepts b l₂ →
      Accepts (.seq a b) (l₁ ++ l₂)
  | altL {a b : RE} {l : Str} : Accepts a l → Accepts (.alt a b) l
  | altR {a b : RE} {l : Str} : Accepts b l → Accepts (.alt a b) l
  | optSome {r : RE} {l : Str} : Accepts r l → Accepts (.opt r) l
  | optNone {r : RE} : Accepts (.opt r) []

theorem isSubstr_spec {needle : Str} :
    ∀ {haystack : Str}, isSubstr needle haystack = true ↔ needle <:+: haystack := by
  intro haystack
  induction haystack with
  | nil =>
    simp [isSubstr, List.isPrefixOf_iff_prefix]
  | cons c t ih =>
    simp [isSubstr, List.isPrefixOf_iff_prefix, ih, List.infix_cons_iff]

theorem tryDrops_eq_some :
    ∀ {m : Nat} {k : Str → Option Nat} {s : Str} {r : Nat},
      tryDrops k s m = some r → ∃ j, 1 ≤ j ∧ j ≤ m ∧ k (s.drop j) = some r := by
  intro m
  induction m with
  | zero => intro k s r h; simp [tryDrops] at h
  | succ j ih =>
    intro k s r h
    rw [tryDrops] at h
    split at h
    next v hv => exact ⟨j + 1, by omega, Nat.le_refl _, hv.trans h⟩
    next =>
      obtain ⟨j', h1, h2, h3⟩ := ih h
      exact ⟨j', h1, Nat.le_succ_of_le h2, h3⟩

theorem matchAt_sound (re : RE) :
    ∀ {s : Str} {k : Str → Option Nat} {r : Nat}, matchAt re s k = some r →
      ∃ n, n ≤ s.length ∧ Accepts re (s.take n) ∧ k (s.drop n) = some r := by
  induction re with
  | fail => intro s k r h; simp [matchAt] at h
  | lit cs =>
    intro s k r h
    rw [matchAt] at h
    split at h
    next hp =>
      obtain ⟨t, rfl⟩ := ( List.isPrefixOf_iff_prefix).mp hp
      refine ⟨cs.length, by simp, ?_, h⟩
      rw [ List.take_left]
      exact Accepts.lit cs
    next => exact Option.noConfusion h
  | cls p =>
    intro s k r h
    match s with
    | [] =>
      have h' : (none : Option Nat) = some r := h
      exact Option.noConfusion h'
    | c :: t =>
      have h' : (if p c then k t else none) = some r := h
      by_cases hc : p c = true
      · rw [if_pos hc] at h'
        exact ⟨1, by simp, Accepts.cls hc, h'⟩
      · rw [if_neg hc] at h'
        exact Option.noConfusion h'
  | plusCls p =>
    intro s k r h
    rw [matchAt] at h
    obtain ⟨j, h1, h2, h3⟩ := tryDrops_eq_some h
    have hrun : (s.takeWhile p).length ≤ s.length :=
      (s.takeWhile_prefix p).length_le
    refine ⟨j, by omega, ?_, h3⟩
    have htake : s.take j = (s.takeWhile p).take j := by
      conv_lhs => rw [← s.takeWhile_append_dropWhile p]
      exact List.take_append_of_le_length h2
    apply Accepts.plusCls
    · have : (s.take j).length = j := by
        rw [List.length_take]
        omega
      intro hnil
      rw [hnil] at this
      simp at this
      omega
    · intro c hc
      rw [htake] at hc
      exact List.mem_takeWhile_imp (List.take_subset _ _ hc)
  | seq a b iha ihb =>
    intro s k r h
    rw [matchAt] at h
    obtain ⟨n₁, hn₁, acc₁, h₂⟩ := iha h
    obtain ⟨n₂, hn₂, acc₂, h₃⟩ := ihb h₂
    rw [List.length_drop] at hn₂
    refine ⟨n₁ + n₂, by omega, ?_, ?_⟩
    · rw [List.take_add]
      exact Accepts.seq acc₁ acc₂
    · rw [List.drop_drop] at h₃
      exact h₃
  | alt a b iha ihb =>
    intro s k r h
    rw [matchAt] at h
    split at h
    next v hv =>
      obtain ⟨n, hn, acc, hk⟩ := iha (hv.trans h)
      exact ⟨n, hn, Accepts.altL acc, hk⟩
    next =>
      obtain ⟨n, hn, acc, hk⟩ := ihb h
      exact ⟨n, hn, Accepts.altR acc, hk⟩
  | opt r ih =>
    intro s k r' h
    rw [matchAt] at h
    split at h
    next v hv =>
      obtain ⟨n, hn, acc, hk⟩ := ih (hv.trans h)
      exact ⟨n, hn, Accepts.optSome acc, hk⟩
    next =>
      exact ⟨0, by simp, Accepts.optNone, by simpa using h⟩

theorem reSearch_sound (re : RE) :
    ∀ {s span : Str}, reSearch re s = some span → Accepts re span ∧ span <:+: s := by
  intro s
  induction s with
  | nil =>
    intro span h
    rw [reSearch] at h
    cases hm : matchAt re [] (fun rem => some rem.length) with
    | none =>
      rw [hm] at h
      exact Option.noConfusion h
    | some r =>
      rw [hm] at h
      obtain ⟨n, hn, acc, _⟩ := matchAt_sound re hm
      have hn0 : n = 0 := by simpa using hn
      subst hn0
      simp only [List.take_nil] at acc
      simp only [Option.map_some'] at h
      cases h
      exact ⟨acc, List.infix_rfl⟩
  | cons c t ih =>
    intro span h
    rw [reSearch] at h
    split at h
    next r hm =>
      obtain ⟨n, hn, acc, hk⟩ := matchAt_sound re hm
      simp only [Option.some.injEq] at hk
      have hr : (c :: t).length - r = n := by
        rw [← hk, List.length_drop]
        omega
      rw [hr] at h
      cases h
      refine ⟨acc, ⟨[], (c :: t).drop n, ?_⟩⟩
      simp [List.take_append_drop]
    next =>
      obtain ⟨acc, hinf⟩ := ih h
      exact ⟨acc, List.infix_cons_iff.mpr (Or.inr hinf)⟩

theorem reSearch_isSome_of_matchAt (re : RE) :
    ∀ {s : Str} (i : Nat),
      (matchAt re (s.drop i) (fun rem => some rem.length)).isSome = true →
      (reSearch re s).isSome = true := by
  intro s
  induction s with
  | nil =>
    intro i h
    rw [List.drop_nil] at h
    rw [reSearch]
    simpa using h
  | cons c t ih =>
    intro i h
    match i with
    | 0 =>
      rw [List.drop_zero] at h
      rw [reSearch]
      split
      next => rfl
      next hm => rw [hm] at h; exact absurd h (by simp)
    | i' + 1 =>
      rw [List.drop_succ_cons] at h
      rw [reSearch]
      split
      next => rfl
      next => exact ih i' h

theorem matchAt_opt_isSome {r : RE} {s : Str} {k : Str → Option Nat}
    (h : (k s).isSome = true) : (matchAt (.opt r) s k).isSome = true := by
  rw [matchAt]
  split
  next => rfl
  next => exact h

theorem matchAt_seq (a b : RE) (s : Str) (k : Str → Option Nat) :
    matchAt (.seq a b) s k = matchAt a s (fun rem => matchAt b rem k) := by
  rw [matchAt]

theorem matchAt_lit_append (cs t : Str) (k : Str → Option Nat) :
    matchAt (.lit cs) (cs ++ t) k = k t := by
  have hp : cs.isPrefixOf (cs ++ t) = true :=
    ( List.isPrefixOf_iff_prefix).mpr (List.prefix_append cs t)
  rw [matchAt, if_pos hp, List.drop_left]

theorem matchAt_widen_isSome (company post : Str) (k : Str → Option Nat)
    (hk : ∀ t, (k t).isSome = true) :
    (matchAt (widenPat company) (company ++ post) k).isSome = true := by
  rw [widenPat, matchAt_seq]
  apply matchAt_opt_isSome
  show (matchAt (.seq (.lit company) (.opt (.seq (.plusCls isWsCh) (.plusCls isWordCh))))
    (company ++ post) k).isSome = true
  rw [matchAt_seq, matchAt_lit_append]
  show (matchAt (.opt (.seq (.plusCls isWsCh) (.plusCls isWordCh))) post k).isSome = true
  exact matchAt_opt_isSome (hk post)

theorem reSearch_widen_isSome {company s : Str} (h : company <:+: s) :
    (reSearch (widenPat company) s).isSome = true := by
  obtain ⟨pre, post, rfl⟩ := h
  apply reSearch_isSome_of_matchAt _ pre.length
  have hdrop : (pre ++ company ++ post).drop pre.length = company ++ post := by
    rw [List.append_assoc, List.drop_left]
  rw [hdrop]
  exact matchAt_widen_isSome company post _ (fun t => rfl)

/-! Counting non-whitespace characters: tools for the short-string and
non-emptiness arguments. -/

theorem not_ws_of_alpha {c : Char} (h : isAlphaCh c = true) : isWsCh c = false := by
  simp [isAlphaCh, isUpperCh, isLowerCh] at h
  simp [isWsCh]
  omega

theorem isWsCh_pyLowerCh (c : Char) : isWsCh (pyLowerCh c) = isWsCh c := by
  rw [pyLowerCh]
  split
  next h =>
    have hu : 65 ≤ c.toNat ∧ c.toNat ≤ 90 := by simpa [isUpperCh] using h
    have hv : (Char.ofNat (c.toNat + 32)).toNat = c.toNat + 32 := by
      unfold Char.ofNat
      rw [dif_pos (Or.inl (by omega))]
      rfl
    have h1 : isWsCh (Char.ofNat (c.toNat + 32)) = false := by
      simp [isWsCh, hv]
      omega
    have h2 : isWsCh c = false := by
      simp [isWsCh]
      omega
    rw [h1, h2]
  next => rfl

theorem countNonWs_pyLower (s : Str) : countNonWs (pyLower s) = countNonWs s := by
  rw [countNonWs, pyLower, List.countP_map, countNonWs]
  apply List.countP_congr
  intro c _
  simp [Function.comp, isWsCh_pyLowerCh]

theorem countNonWs_dropWhileWs (l : Str) :
    countNonWs (l.dropWhile isWsCh) = countNonWs l := by
  conv_rhs => rw [← l.takeWhile_append_dropWhile isWsCh]
  rw [countNonWs, countNonWs, List.countP_append]
  have h0 : (l.takeWhile isWsCh).countP (fun c => !isWsCh c) = 0 := by
    rw [List.countP_eq_zero]
    intro a ha
    simp [List.mem_takeWhile_imp ha]
  omega

theorem countNonWs_trim (s : Str) : countNonWs (trimWs s) = countNonWs s := by
  have h1 : countNonWs (trimWs s) =
      countNonWs ((s.dropWhile isWsCh).reverse.dropWhile isWsCh) := by
    show List.countP (fun c => !isWsCh c)
        (((s.dropWhile isWsCh).reverse.dropWhile isWsCh).reverse) =
      List.countP (fun c => !isWsCh c) ((s.dropWhile isWsCh).reverse.dropWhile isWsCh)
    exact List.countP_reverse _ _
  have h3 : countNonWs (s.dropWhile isWsCh).reverse = countNonWs (s.dropWhile isWsCh) := by
    show List.countP (fun c => !isWsCh c) ((s.dropWhile isWsCh).reverse) =
      List.countP (fun c => !isWsCh c) (s.dropWhile isWsCh)
    exact List.countP_reverse _ _
  rw [h1, countNonWs_dropWhileWs, h3, countNonWs_dropWhileWs]

theorem countNonWs_le_trim_length (s : Str) : countNonWs s ≤ (trimWs s).length := by
  rw [← countNonWs_trim]
  exact List.countP_le_length _

theorem countNonWs_le_of_sub {a b : Str} (h : a <:+: b) :
    countNonWs a ≤ countNonWs b := by
  rw [countNonWs, countNonWs]
  exact List.Sublist.countP_le _ h.sublist

theorem trimWs_ne_nil {s : Str} (h : 1 ≤ countNonWs s) : trimWs s ≠ [] := by
  intro hnil
  have ht := countNonWs_trim s
  rw [hnil] at ht
  have h0 : countNonWs ([] : Str) = 0 := rfl
  omega

theorem accepts_altList {rs : List RE} {l : Str} (h : Accepts (altList rs) l) :
    ∃ r ∈ rs, Accepts r l := by
  induction rs with
  | nil =>
    have h' : Accepts .fail l := h
    exact nomatch h'
  | cons r rs ih =>
    have h' : Accepts (.alt r (altList rs)) l := h
    cases h' with
    | altL ha => exact ⟨r, List.mem_cons_self r rs, ha⟩
    | altR ha =>
      obtain ⟨r', hr', ha'⟩ := ih ha
      exact ⟨r', List.mem_cons_of_mem r hr', ha'⟩

theorem accepts_suffixPat_count {l : Str} (h : Accepts suffixPat l) :
    3 ≤ countNonWs l := by
  have h' : Accepts (.seq (.cls isAlphaCh) (.seq (.plusCls isSuffixClsCh)
      (.seq (.plusCls isWsCh) (altList (suffixLits.map RE.lit))))) l := h
  cases h' with
  | seq h1 h2 =>
    cases h1 with
    | cls hc =>
      cases h2 with
      | seq h3 h4 =>
        cases h4 with
        | seq h5 h6 =>
          obtain ⟨r, hr, ha⟩ := accepts_altList h6
          obtain ⟨w, hw, rfl⟩ := List.mem_map.mp hr
          have hlits : ∀ u ∈ suffixLits, 2 ≤ countNonWs u := by decide
          have hw2 : 2 ≤ List.countP (fun c' => !isWsCh c') w := hlits w hw
          cases ha
          have hc' := not_ws_of_alpha hc
          simp [countNonWs, List.countP_append, List.countP_cons, hc']
          omega

theorem accepts_widen_count {company l : Str} (h : Accepts (widenPat company) l) :
    countNonWs company ≤ countNonWs l := by
  have h' : Accepts (.seq (.opt (.seq (.plusCls isWordCh) (.plusCls isWsCh)))
      (.seq (.lit company) (.opt (.seq (.plusCls isWsCh) (.plusCls isWordCh))))) l := h
  cases h' with
  | seq h1 h2 =>
    cases h2 with
    | seq h3 h4 =>
      cases h3
      simp only [countNonWs, List.countP_append]
      omega

/-! Properties of `_extract_company_name` and of the per-string classifier. -/

theorem extract_of_company_any {aff : Str}
    (h : COMMON_PHARMA_BIOTECH_COMPANIES.any (fun c => isSubstr c aff) = true) :
    ∃ c₀ span,
      COMMON_PHARMA_BIOTECH_COMPANIES.find? (fun c => isSubstr c aff) = some c₀ ∧
      reSearch (widenPat c₀) aff = some span ∧
      _extract_company_name aff = trimWs span ∧ trimWs span ≠ [] := by
  obtain ⟨c₀, hfind⟩ : ∃ c₀,
      COMMON_PHARMA_BIOTECH_COMPANIES.find? (fun c => isSubstr c aff) = some c₀ := by
    cases hf : COMMON_PHARMA_BIOTECH_COMPANIES.find? (fun c => isSubstr c aff) with
    | none =>
      rw [List.find?_eq_none] at hf
      obtain ⟨x, hx, hpx⟩ := List.any_eq_true.mp h
      exact absurd hpx (by simpa using hf x hx)
    | some c => exact ⟨c, rfl⟩
  have hc₀ : isSubstr c₀ aff = true := by
    have hp := List.find?_some hfind
    simpa using hp
  have hmem : c₀ ∈ COMMON_PHARMA_BIOTECH_COMPANIES := List.mem_of_find?_eq_some hfind
  have hinf : c₀ <:+: aff := isSubstr_spec.mp hc₀
  obtain ⟨span, hspan⟩ := Option.isSome_iff_exists.mp (reSearch_widen_isSome hinf)
  have hacc := (reSearch_sound _ hspan).1
  have hcount : countNonWs c₀ ≤ countNonWs span := accepts_widen_count hacc
  have hc1 : 1 ≤ countNonWs c₀ :=
    (by decide : ∀ u ∈ COMMON_PHARMA_BIOTECH_COMPANIES, 1 ≤ countNonWs u) c₀ hmem
  have hne : trimWs span ≠ [] := trimWs_ne_nil (by omega)
  refine ⟨c₀, span, hfind, hspan, ?_, hne⟩
  simp only [_extract_company_name, hfind, hspan]

theorem stringStep_company {st : Bool × List Str} {aff : Str}
    (h : COMMON_PHARMA_BIOTECH_COMPANIES.any (fun c => isSubstr c (pyLower aff)) = true) :
    stringStep st aff = (true, st.2 ++ [_extract_company_name (pyLower aff)]) ∧
      _extract_company_name (pyLower aff) ≠ [] := by
  obtain ⟨c₀, span, hfind, hspan, hex, hne⟩ := extract_of_company_any h
  have hlen : 3 ≤ (pyLower aff).length := by
    obtain ⟨x, hx, hpx⟩ := List.any_eq_true.mp h
    have h3 : 3 ≤ x.length :=
      (by decide : ∀ u ∈ COMMON_PHARMA_BIOTECH_COMPANIES, 3 ≤ u.length) x hx
    have := (isSubstr_spec.mp hpx).length_le
    omega
  have hne' : ¬ _extract_company_name (pyLower aff) = [] := by rw [hex]; exact hne
  refine ⟨?_, hne'⟩
  simp only [stringStep]
  rw [if_neg (by omega : ¬ (pyLower aff).length < 3), if_neg hne']

theorem stringStep_suffix {st : Bool × List Str} {aff span : Str}
    (h1 : 3 ≤ (pyLower aff).length)
    (h2 : ∀ c ∈ COMMON_PHARMA_BIOTECH_COMPANIES, isSubstr c (pyLower aff) = false)
    (h3 : reSearch suffixPat (pyLower aff) = some span) :
    stringStep st aff = (true, st.2 ++ [trimWs span]) ∧ trimWs span ≠ [] := by
  have hfind : COMMON_PHARMA_BIOTECH_COMPANIES.find? (fun c => isSubstr c (pyLower aff)) =
      none :=
    List.find?_eq_none.mpr (fun x hx => by simp [h2 x hx])
  have hex : _extract_company_name (pyLower aff) = trimWs span := by
    simp only [_extract_company_name, hfind, h3]
  have hacc := (reSearch_sound _ h3).1
  have hcount := accepts_suffixPat_count hacc
  have hne : trimWs span ≠ [] := trimWs_ne_nil (by omega)
  have hne' : ¬ _extract_company_name (pyLower aff) = [] := by rw [hex]; exact hne
  refine ⟨?_, hne⟩
  simp only [stringStep]
  rw [if_neg (by omega : ¬ (pyLower aff).length < 3), if_neg hne', hex]

theorem stringStep_nosignal {st : Bool × List Str} {aff : Str}
    (h2 : ∀ c ∈ COMMON_PHARMA_BIOTECH_COMPANIES, isSubstr c (pyLower aff) = false)
    (h3 : reSearch suffixPat (pyLower aff) = none)
    (h4 : (PHARMA_BIOTECH_KEYWORDS.any (fun k => isSubstr k (pyLower aff))) = false ∨
        (ACADEMIC_KEYWORDS.any (fun k => isSubstr k (pyLower aff))) = true) :
    stringStep st aff = st := by
  by_cases hlen : (pyLower aff).length < 3
  · simp only [stringStep]
    rw [if_pos hlen]
  · have hfind : COMMON_PHARMA_BIOTECH_COMPANIES.find?
        (fun c => isSubstr c (pyLower aff)) = none :=
      List.find?_eq_none.mpr (fun x hx => by simp [h2 x hx])
    have hex : _extract_company_name (pyLower aff) = [] := by
      simp only [_extract_company_name, hfind, h3]
    have hcond : (PHARMA_BIOTECH_KEYWORDS.any (fun k => isSubstr k (pyLower aff)) &&
        !(ACADEMIC_KEYWORDS.any (fun k => isSubstr k (pyLower aff)))) = false := by
      rcases h4 with h | h <;> simp [h]
    simp only [stringStep]
    rw [if_neg hlen, hex, if_pos rfl, hcond]
    simp

theorem stringStep_short {st : Bool × List Str} {aff : Str}
    (h : (trimWs aff).length < 3) : stringStep st aff = st := by
  have hums : countNonWs aff < 3 :=
    Nat.lt_of_le_of_lt (countNonWs_le_trim_length aff) h
  have hlow : countNonWs (pyLower aff) < 3 := by
    rw [countNonWs_pyLower]
    exact hums
  have h2 : ∀ c ∈ COMMON_PHARMA_BIOTECH_COMPANIES, isSubstr c (pyLower aff) = false := by
    intro c hc
    by_contra hcc
    simp only [Bool.not_eq_false] at hcc
    have hle := countNonWs_le_of_sub (isSubstr_spec.mp hcc)
    have h3c : 3 ≤ countNonWs c :=
      (by decide : ∀ u ∈ COMMON_PHARMA_BIOTECH_COMPANIES, 3 ≤ countNonWs u) c hc
    omega
  have h3 : reSearch suffixPat (pyLower aff) = none := by
    cases hs : reSearch suffixPat (pyLower aff) with
    | none => rfl
    | some span =>
      obtain ⟨hacc, hinf⟩ := reSearch_sound _ hs
      have ha := accepts_suffixPat_count hacc
      have hb := countNonWs_le_of_sub hinf
      omega
  have h4 : (PHARMA_BIOTECH_KEYWORDS.any (fun k => isSubstr k (pyLower aff))) = false := by
    by_contra hp
    simp only [Bool.not_eq_false, List.any_eq_true] at hp
    obtain ⟨k, hk, hkk⟩ := hp
    have ha := countNonWs_le_of_sub (isSubstr_spec.mp hkk)
    have hb : 3 ≤ countNonWs k :=
      (by decide : ∀ u ∈ PHARMA_BIOTECH_KEYWORDS, 3 ≤ countNonWs u) k hk
    omega
  exact stringStep_nosignal h2 h3 (Or.inl h4)

/-! Author-level lemmas: the affiliation fold, the email step, idempotence and
the company-implies-flag invariant. -/

theorem stringStep_preserves (st : Bool × List Str) (aff : Str)
    (h : st.1 = false → st.2 = []) :
    (stringStep st aff).1 = false → (stringStep st aff).2 = [] := by
  simp only [stringStep]
  split
  next => exact h
  next =>
    split
    next =>
      split
      next => intro hf; exact absurd hf (by simp)
      next => exact h
    next => intro hf; exact absurd hf (by simp)

theorem foldl_stringStep_preserves (affs : List Str) :
    ∀ st : Bool × List Str, (st.1 = false → st.2 = []) →
      ((affs.foldl stringStep st).1 = false → (affs.foldl stringStep st).2 = []) := by
  induction affs with
  | nil => intro st h; exact h
  | cons a t ih => intro st h; exact ih _ (stringStep_preserves st a h)

theorem emailStep_preserves (email : Option Str) (affs : List Str)
    (st : Bool × List Str) (h : st.1 = false → st.2 = []) :
    (emailStep email affs st).1 = false → (emailStep email affs st).2 = [] := by
  cases email with
  | none => exact h
  | some e =>
    simp only [emailStep]
    split
    next => intro hf; exact absurd hf (by simp)
    next => exact h

theorem classifyAuthor_company_flag (a : Author) :
    (classifyAuthor a).is_non_academic = false →
      (classifyAuthor a).company_affiliations = [] :=
  emailStep_preserves a.email a.affiliations (affilState a)
    (foldl_stringStep_preserves a.affiliations (false, []) (fun _ => rfl))

theorem classifyAuthor_idem (a : Author) :
    classifyAuthor (classifyAuthor a) = classifyAuthor a := by
  cases a
  rfl

theorem classifyPaper_idem (p : Paper) : classifyPaper (classifyPaper p) = classifyPaper p := by
  have h : (p.authors.map classifyAuthor).map classifyAuthor =
      p.authors.map classifyAuthor := by
    rw [List.map_map]
    exact List.map_congr_left (fun a _ => classifyAuthor_idem a)
  show { p with authors := (p.authors.map classifyAuthor).map classifyAuthor } =
    { p with authors := p.authors.map classifyAuthor }
  rw [h]

theorem mem_identify {papers : List Paper} {p : Paper}
    (hp : p ∈ identify_non_academic_authors papers) :
    p.has_non_academic_authors = true ∧ classifyPaper p = p := by
  rw [identify_non_academic_authors] at hp
  obtain ⟨hmap, hpred⟩ := List.mem_filter.mp hp
  obtain ⟨q, _, rfl⟩ := List.mem_map.mp hmap
  exact ⟨hpred, classifyPaper_idem q⟩

theorem filter_identify (papers : List Paper) :
    (identify_non_academic_authors papers).filter
        (fun paper => paper.has_non_academic_authors) =
      identify_non_academic_authors papers := by
  rw [identify_non_academic_authors, List.filter_filter]
  apply List.filter_congr
  intro p _
  simp

theorem map_classify_identify (papers : List Paper) :
    (identify_non_academic_authors papers).map classifyPaper =
      identify_non_academic_authors papers := by
  have h1 : (identify_non_academic_authors papers).map classifyPaper =
      (identify_non_academic_authors papers).map id :=
    List.map_congr_left (fun p hp => (mem_identify hp).2)
  rw [h1, List.map_id]

theorem identify_idem (papers : List Paper) :
    identify_non_academic_authors (identify_non_academic_authors papers) =
      identify_non_academic_authors papers := by
  show ((identify_non_academic_authors papers).map classifyPaper).filter
      (fun paper => paper.has_non_academic_authors) =
    identify_non_academic_authors papers
  rw [map_classify_identify, filter_identify]

theorem filter_papers_eq_identify (papers : List Paper) :
    filter_papers_with_company_affiliations papers =
      identify_non_academic_authors papers :=
  filter_identify papers

theorem foldl_stringStep_const {affs : List Str}
    (h : ∀ aff ∈ affs, ∀ st : Bool × List Str, stringStep st aff = st) :
    ∀ st : Bool × List Str, affs.foldl stringStep st = st := by
  induction affs with
  | nil => intro st; rfl
  | cons a t ih =>
    intro st
    rw [List.foldl_cons, h a (List.mem_cons_self a t) st]
    exact ih (fun aff ha => h aff (List.mem_cons_of_mem a ha)) st

theorem emailStep_no_fire {email : Str} {affs : List Str} {st : Bool × List Str}
    (h : (NON_ACADEMIC_EMAIL_DOMAINS.any (fun d => isSubstr d (pyLower email))) = false ∨
        (ACADEMIC_EMAIL_DOMAINS.any (fun d => isSubstr d (pyLower email))) = true ∨
        st.1 = true) :
    emailStep (some email) affs st = st := by
  simp only [emailStep]
  have hc : (NON_ACADEMIC_EMAIL_DOMAINS.any (fun d => isSubstr d (pyLower email)) &&
      !(ACADEMIC_EMAIL_DOMAINS.any (fun d => isSubstr d (pyLower email))) && !st.1) = false := by
    rcases h with h | h | h <;> simp [h]
  rw [hc]
  simp

theorem emailStep_fire {email : Str} {affs : List Str} {st : Bool × List Str}
    (h1 : (NON_ACADEMIC_EMAIL_DOMAINS.any (fun d => isSubstr d (pyLower email))) = true)
    (h2 : (ACADEMIC_EMAIL_DOMAINS.any (fun d => isSubstr d (pyLower email))) = false)
    (h3 : st.1 = false) :
    emailStep (some email) affs st =
      (true, if st.2.isEmpty && !affs.isEmpty then affs.take 1 else st.2) := by
  simp only [emailStep]
  rw [h1, h2, h3]
  simp

theorem emailStep_cond_false {email : Str} {affs : List Str} {st : Bool × List Str}
    (h : (NON_ACADEMIC_EMAIL_DOMAINS.any (fun d => isSubstr d (pyLower email)) &&
        !(ACADEMIC_EMAIL_DOMAINS.any (fun d => isSubstr d (pyLower email))) &&
        !st.1) = false) :
    emailStep (some email) affs st = st := by
  simp only [emailStep]
  split
  next hc => rw [hc] at h; exact absurd h (by simp)
  next => rfl

/-! Concrete fixtures: the paper list of the repository's own test
`test_identify_non_academic_authors`, and single authors used as witnesses
and counterexamples. -/

/-- The three papers constructed by the repository's test
`tests/test_pubmed_papers.py`. -/
def testPapers : List Paper :=
  [{ pubmed_id := "1", title := "Test Paper 1", publication_date := "2023-01-01",
     authors :=
       [{ name := "Academic Author",
          affiliations := [strL "University of Science, Department of Medicine"],
          email := some (strL "author@university.edu") },
        { name := "Company Author",
          affiliations := [strL "Pfizer Inc., Research Division"],
          email := some (strL "author@pfizer.com") }] },
   { pubmed_id := "2", title := "Test Paper 2", publication_date := "2023-02-01",
     authors :=
       [{ name := "Academic Author 2",
          affiliations := [strL "Medical School, Research Center"],
          email := some (strL "author2@med.edu") }] },
   { pubmed_id := "3", title := "Test Paper 3", publication_date := "2023-03-01",
     authors :=
       [{ name := "Biotech Author",
          affiliations := [strL "GeneTech Biotech Company"],
          email := some (strL "author@genetech.com") }] }]

/-- An author whose only affiliation is the academic string
`"University of Colorado"`. -/
def uColoradoAuthor : Author :=
  { name := "A", affiliations := [strL "University of Colorado"] }

/-- The academic author of the spec's end-to-end example. -/
def exampleAcademicAuthor : Author :=
  { name := "Academic Author",
    affiliations := [strL "University of Science, Department of Medicine"],
    email := some (strL "author@university.edu") }

/-- An author with a signal-free affiliation string and a `.com` email. -/
def authC5 : Author :=
  { name := "E", affiliations := [strL "Acme Research"],
    email := some (strL "a@b.com") }

/-- C1: the claim says `identify_non_academic_authors` returns all input papers
in input order, with every author classified, and that a paper with zero
non-academic authors still appears.  The code instead filters (line 102 of
`filters.py`): on the repository's own test input (whose test asserts
`len(result) == 3`), the returned list keeps only papers "1" and "3" and drops
paper "2", whose sole author is academic.  This theorem evaluates the code at
that failing input. -/
theorem claim_C1_code_evaluation :
    (identify_non_academic_authors testPapers).map (fun p => p.pubmed_id) = ["1", "3"] ∧
    ((testPapers.map classifyPaper).map (fun p => p.has_non_academic_authors)) =
      [true, false, true] ∧
    testPapers.length = 3 := by
  refine ⟨by decide, by decide, by decide⟩

/-- C2 counterexample: the affiliation `"Acme Limited"` contains no
known-company lexicon entry and no pharma/biotech keyword — so the keyword
heuristic cannot fire — yet it is classified non-academic, with the span found
by the corporate-suffix regex as company name.  This refutes the claim that
the suffix regex never independently triggers a non-academic verdict on a
string without a lexicon hit. -/
theorem claim_C2_counterexample :
    (COMMON_PHARMA_BIOTECH_COMPANIES.all
      (fun c => !isSubstr c (pyLower (strL "Acme Limited")))) = true ∧
    (PHARMA_BIOTECH_KEYWORDS.all
      (fun k => !isSubstr k (pyLower (strL "Acme Limited")))) = true ∧
    stringStep (false, []) (strL "Acme Limited") = (true, [strL "acme limited"]) := by
  refine ⟨by decide, by decide, by decide⟩

/-- C2 amended: the corporate-suffix regex is an independent fallback inside
`_extract_company_name`, searched case-insensitively over the whole lowercased
string: on any affiliation string (length ≥ 3 lowercased) with no
known-company lexicon hit, a match of the suffix regex classifies the string
non-academic with the matched span, whitespace-trimmed and non-empty, as
company name — before the keyword heuristic is consulted. -/
theorem claim_C2_amended (st : Bool × List Str) (aff span : Str)
    (h1 : 3 ≤ (pyLower aff).length)
    (h2 : ∀ c ∈ COMMON_PHARMA_BIOTECH_COMPANIES, isSubstr c (pyLower aff) = false)
    (h3 : reSearch suffixPat (pyLower aff) = some span) :
    stringStep st aff = (true, st.2 ++ [trimWs span]) ∧ trimWs span ≠ [] :=
  stringStep_suffix h1 h2 h3

/-- Witness for C2: the amended statement at the concrete input `"Acme Limited"`. -/
theorem claim_C2_witness :
    stringStep (false, []) (strL "Acme Limited") =
      (true, ([] : List Str) ++ [trimWs (strL "acme limited")]) ∧
    trimWs (strL "acme limited") ≠ [] :=
  claim_C2_amended (false, []) (strL "Acme Limited") (strL "acme limited")
    (by decide) (by decide) (by decide)

/-- C3 counterexample: `"University of Colorado"` contains the academic keyword
`"university"`, no pharma/biotech keyword and no known-company lexicon entry,
yet the author carrying it ends with `is_non_academic = true` and company list
`["university of co"]`: the corporate-suffix regex (case-insensitive, so
`[A-Z]` matches lowercase) matches `"university of co"` against the `Co`
alternative at the start of `"colorado"`.  The universally quantified part of
the claim is therefore false. -/
theorem claim_C3_counterexample :
    (ACADEMIC_KEYWORDS.any
      (fun k => isSubstr k (pyLower (strL "University of Colorado")))) = true ∧
    (PHARMA_BIOTECH_KEYWORDS.all
      (fun k => !isSubstr k (pyLower (strL "University of Colorado")))) = true ∧
    (COMMON_PHARMA_BIOTECH_COMPANIES.all
      (fun c => !isSubstr c (pyLower (strL "University of Colorado")))) = true ∧
    (classifyAuthor uColoradoAuthor).is_non_academic = true ∧
    (classifyAuthor uColoradoAuthor).company_affiliations = [strL "university of co"] := by
  refine ⟨by decide, by decide, by decide, by decide, by decide⟩

/-- C3 amended: for every author each of whose affiliation strings contains no
known-company lexicon entry, no pharma/biotech keyword, AND no match of the
corporate-suffix regex in its lowercased form, classification yields
`is_non_academic = false` and `company_affiliations = []`, absent any
email-domain signal; in particular the end-to-end example with affiliation
`"University of Science, Department of Medicine"` and email
`"author@university.edu"` (see the witness). -/
theorem claim_C3_amended (a : Author)
    (haff : (a.affiliations.all (fun aff =>
        COMMON_PHARMA_BIOTECH_COMPANIES.all (fun c => !isSubstr c (pyLower aff)) &&
        (reSearch suffixPat (pyLower aff)).isNone &&
        PHARMA_BIOTECH_KEYWORDS.all (fun k => !isSubstr k (pyLower aff)))) = true)
    (hemail : ∀ e, a.email = some e →
        (NON_ACADEMIC_EMAIL_DOMAINS.any (fun d => isSubstr d (pyLower e))) = false ∨
        (ACADEMIC_EMAIL_DOMAINS.any (fun d => isSubstr d (pyLower e))) = true) :
    (classifyAuthor a).is_non_academic = false ∧
    (classifyAuthor a).company_affiliations = [] := by
  have hfold : affilState a = (false, []) := by
    apply foldl_stringStep_const
    intro aff haf st
    have hb := List.all_eq_true.mp haff aff haf
    simp only [Bool.and_eq_true] at hb
    obtain ⟨⟨hA, hB⟩, hC⟩ := hb
    apply stringStep_nosignal
    · intro c hc
      have := List.all_eq_true.mp hA c hc
      simpa using this
    · rwa [Option.isNone_iff_eq_none] at hB
    · left
      rw [List.any_eq_false]
      intro k hk
      have := List.all_eq_true.mp hC k hk
      simpa using this
  have h1 : (classifyAuthor a).is_non_academic =
      (emailStep a.email a.affiliations (affilState a)).1 := rfl
  have h2 : (classifyAuthor a).company_affiliations =
      (emailStep a.email a.affiliations (affilState a)).2 := rfl
  rw [h1, h2, hfold]
  cases he : a.email with
  | none => exact ⟨rfl, rfl⟩
  | some e =>
    have hfire : emailStep (some e) a.affiliations ((false, []) : Bool × List Str) =
        ((false, []) : Bool × List Str) := by
      apply emailStep_no_fire
      rcases hemail e he with h | h
      · exact Or.inl h
      · exact Or.inr (Or.inl h)
    rw [hfire]
    exact ⟨rfl, rfl⟩

/-- Witness for C3: the amended statement at the spec's end-to-end example
author. -/
theorem claim_C3_witness :
    (classifyAuthor exampleAcademicAuthor).is_non_academic = false ∧
    (classifyAuthor exampleAcademicAuthor).company_affiliations = [] :=
  claim_C3_amended exampleAcademicAuthor (by decide)
    (fun e he => by
      have he' : some (strL "author@university.edu") = some e := he
      cases he'
      exact Or.inr (by decide))

/-- C4: an affiliation string that is shorter than 3 characters after trimming
yields no signal regardless of content: the per-string classification step
leaves the author's `(is_non_academic, company_affiliations)` state unchanged.
(The code's own skip test is `len < 3` on the untrimmed lowercased string; for
strings whose trimmed length is below 3 every later check also fails, because
every lexicon entry, keyword and suffix-regex match requires at least 3
non-whitespace characters.) -/
theorem claim_C4 (st : Bool × List Str) (aff : Str)
    (h : (trimWs aff).length < 3) :
    stringStep st aff = st :=
  stringStep_short h

/-- Witness for C4: the string `" a "` (trimmed length 1) on a non-trivial
state. -/
theorem claim_C4_witness :
    (trimWs (strL " a ")).length < 3 ∧
    stringStep (true, [strL "Pfizer"]) (strL " a ") = (true, [strL "Pfizer"]) :=
  ⟨by decide, claim_C4 (true, [strL "Pfizer"]) (strL " a ") (by decide)⟩

/-- C5: the email-domain check fires exactly when the lower-cased email
contains a non-academic domain fragment, contains no academic domain fragment,
and the author was not already classified non-academic from affiliation text.
When it fires it sets `is_non_academic = true` and, if `company_affiliations`
is still empty and the author has at least one affiliation string, seeds it
with the first affiliation string verbatim; when it does not fire — in
particular when the affiliation text already gave a non-academic verdict —
the verdict and company list are exactly those of the affiliation scan. -/
theorem claim_C5 (a : Author) (e : Str) (he : a.email = some e) :
    ((affilState a).1 = true →
      (classifyAuthor a).is_non_academic = true ∧
      (classifyAuthor a).company_affiliations = (affilState a).2) ∧
    ((NON_ACADEMIC_EMAIL_DOMAINS.any (fun d => isSubstr d (pyLower e)) &&
        !(ACADEMIC_EMAIL_DOMAINS.any (fun d => isSubstr d (pyLower e))) &&
        !(affilState a).1) = true →
      (classifyAuthor a).is_non_academic = true ∧
      (classifyAuthor a).company_affiliations =
        (if (affilState a).2.isEmpty && !a.affiliations.isEmpty
         then a.affiliations.take 1 else (affilState a).2)) ∧
    ((NON_ACADEMIC_EMAIL_DOMAINS.any (fun d => isSubstr d (pyLower e)) &&
        !(ACADEMIC_EMAIL_DOMAINS.any (fun d => isSubstr d (pyLower e))) &&
        !(affilState a).1) = false →
      (classifyAuthor a).is_non_academic = (affilState a).1 ∧
      (classifyAuthor a).company_affiliations = (affilState a).2) := by
  have h1 : (classifyAuthor a).is_non_academic =
      (emailStep a.email a.affiliations (affilState a)).1 := rfl
  have h2 : (classifyAuthor a).company_affiliations =
      (emailStep a.email a.affiliations (affilState a)).2 := rfl
  rw [he] at h1 h2
  refine ⟨?_, ?_, ?_⟩
  · intro hf
    have hcond : (NON_ACADEMIC_EMAIL_DOMAINS.any (fun d => isSubstr d (pyLower e)) &&
        !(ACADEMIC_EMAIL_DOMAINS.any (fun d => isSubstr d (pyLower e))) &&
        !(affilState a).1) = false := by
      rw [hf]
      simp
    rw [h1, h2, emailStep_cond_false hcond]
    exact ⟨hf, rfl⟩
  · intro hfire
    simp only [Bool.and_eq_true, Bool.not_eq_true'] at hfire
    obtain ⟨⟨hnad, hacad⟩, hflag⟩ := hfire
    rw [h1, h2, emailStep_fire hnad hacad hflag]
    exact ⟨rfl, rfl⟩
  · intro hnofire
    rw [h1, h2, emailStep_cond_false hnofire]
    exact ⟨rfl, rfl⟩

/-- Witness for C5: an author with the signal-free affiliation
`"Acme Research"` and email `"a@b.com"`: the check fires and seeds the company
list with the first affiliation string. -/
theorem claim_C5_witness :
    (classifyAuthor authC5).is_non_academic = true ∧
    (classifyAuthor authC5).company_affiliations =
      (if (affilState authC5).2.isEmpty && !authC5.affiliations.isEmpty
       then authC5.affiliations.take 1 else (affilState authC5).2) :=
  (claim_C5 authC5 (strL "a@b.com") rfl).2.1 (by decide)

/-- C6: for every affiliation string containing a known-company lexicon entry
(after lower-casing), step 1 classifies the string non-academic, appending a
non-empty company name; the name is computed by widening the first matching
lexicon entry with the pattern `(\w+\s+)?<company>(\s+\w+)?` and trimming the
matched span of whitespace. -/
theorem claim_C6 (st : Bool × List Str) (aff : Str)
    (h : (COMMON_PHARMA_BIOTECH_COMPANIES.any
      (fun c => isSubstr c (pyLower aff))) = true) :
    stringStep st aff = (true, st.2 ++ [_extract_company_name (pyLower aff)]) ∧
    _extract_company_name (pyLower aff) ≠ [] ∧
    (∃ c₀ span,
      COMMON_PHARMA_BIOTECH_COMPANIES.find?
        (fun c => isSubstr c (pyLower aff)) = some c₀ ∧
      reSearch (widenPat c₀) (pyLower aff) = some span ∧
      _extract_company_name (pyLower aff) = trimWs span) := by
  obtain ⟨hstep, hne⟩ := stringStep_company h
  obtain ⟨c₀, span, hfind, hspan, hex, _⟩ := extract_of_company_any h
  exact ⟨hstep, hne, c₀, span, hfind, hspan, hex⟩

/-- Witness for C6: the affiliation `"Merck Research Laboratories"`, whose
lexicon entry `"merck"` widens to the span `"merck research"`. -/
theorem claim_C6_witness :
    stringStep (false, []) (strL "Merck Research Laboratories") =
      (true, ([] : List Str) ++
        [_extract_company_name (pyLower (strL "Merck Research Laboratories"))]) ∧
    _extract_company_name (pyLower (strL "Merck Research Laboratories")) ≠ [] ∧
    (∃ c₀ span,
      COMMON_PHARMA_BIOTECH_COMPANIES.find?
        (fun c => isSubstr c (pyLower (strL "Merck Research Laboratories"))) = some c₀ ∧
      reSearch (widenPat c₀) (pyLower (strL "Merck Research Laboratories")) = some span ∧
      _extract_company_name (pyLower (strL "Merck Research Laboratories")) =
        trimWs span) :=
  claim_C6 (false, []) (strL "Merck Research Laboratories") (by decide)

/-- C7: running the Paper Filter a second time on the same paper list leaves
every author's `is_non_academic` flag and `company_affiliations` list exactly
as a single run does: both entry points are idempotent, because classification
resets the two author fields and recomputes them from fields it never
modifies. -/
theorem claim_C7 (papers : List Paper) :
    identify_non_academic_authors (identify_non_academic_authors papers) =
      identify_non_academic_authors papers ∧
    filter_papers_with_company_affiliations
        (filter_papers_with_company_affiliations papers) =
      filter_papers_with_company_affiliations papers ∧
    ∀ a : Author, classifyAuthor (classifyAuthor a) = classifyAuthor a := by
  refine ⟨identify_idem papers, ?_, classifyAuthor_idem⟩
  rw [filter_papers_eq_identify papers,
    filter_papers_eq_identify (identify_non_academic_authors papers), identify_idem]

/-- C8: after the classification pass, every author of every returned paper
with a non-empty `company_affiliations` list has `is_non_academic = true`. -/
theorem claim_C8 (papers : List Paper) :
    ((identify_non_academic_authors papers).all
      (fun p => p.authors.all
        (fun a => a.company_affiliations.isEmpty || a.is_non_academic))) = true := by
  rw [List.all_eq_true]
  intro p hp
  rw [List.all_eq_true]
  intro a ha
  obtain ⟨_, hcp⟩ := mem_identify hp
  rw [← hcp] at ha
  have ha' : a ∈ p.authors.map classifyAuthor := ha
  obtain ⟨b, _, rfl⟩ := List.mem_map.mp ha'
  cases hf : (classifyAuthor b).is_non_academic with
  | true => simp [hf]
  | false =>
    have hemp := classifyAuthor_company_flag b hf
    simp [hemp]

/-- C9: classification is total and treats degenerate affiliation strings as a
non-match: a string under 3 characters contributes no signal, inserting such a
string anywhere in an author's affiliation list leaves the affiliation-scan
state unchanged (no other valid signal is dropped), and both entry points
return normally with at most as many papers as they were given. -/
theorem claim_C9 (st : Bool × List Str) (xs ys : List Str) (aff : Str)
    (h : (pyLower aff).length < 3) :
    stringStep st aff = st ∧
    (xs ++ aff :: ys).foldl stringStep st = (xs ++ ys).foldl stringStep st ∧
    ∀ papers : List Paper,
      (identify_non_academic_authors papers).length ≤ papers.length ∧
      (filter_papers_with_company_affiliations papers).length ≤ papers.length := by
  have hs : ∀ st' : Bool × List Str, stringStep st' aff = st' := by
    intro st'
    simp only [stringStep]
    rw [if_pos h]
  have hlen : ∀ papers : List Paper,
      (identify_non_academic_authors papers).length ≤ papers.length := by
    intro papers
    calc (identify_non_academic_authors papers).length
        ≤ (papers.map classifyPaper).length :=
          List.length_filter_le _ _
      _ = papers.length := List.length_map _ _
  refine ⟨hs st, ?_, ?_⟩
  · rw [List.foldl_append, List.foldl_append, List.foldl_cons, hs _]
  · intro papers
    refine ⟨hlen papers, ?_⟩
    rw [filter_papers_eq_identify]
    exact hlen papers

/-- Witness for C9: the empty affiliation string inserted after a Pfizer
affiliation. -/
theorem claim_C9_witness :
    (pyLower (strL "")).length < 3 ∧
    stringStep (false, []) (strL "") = (false, []) ∧
    ([strL "Pfizer Inc., Research Division"] ++ strL "" :: []).foldl stringStep
        (false, []) =
      ([strL "Pfizer Inc., Research Division"] ++ []).foldl stringStep (false, []) :=
  ⟨by decide,
   (claim_C9 (false, []) [strL "Pfizer Inc., Research Division"] [] (strL "")
     (by decide)).1,
   (claim_C9 (false, []) [strL "Pfizer Inc., Research Division"] [] (strL "")
     (by decide)).2.1⟩

/-- C10: the two public entry points agree on every input: the extra filtering
pass of `filter_papers_with_company_affiliations` removes nothing, because
`identify_non_academic_authors` already returns only papers with at least one
non-academic author. -/
theorem claim_C10 (papers : List Paper) :
    filter_papers_with_company_affiliations papers =
      identify_non_academic_authors papers :=
  filter_papers_eq_identify papers
